import Mathlib

/-!
Shallow embedding of `ipwraplib.py` (simple wrappers for unix commands that
query network info from the OS) together with proofs about its behaviour.

Strings from the Python source are modelled as `List Char`; Python integers
are `Nat`/`Int` (Python ints are arbitrary precision, so no wrap-around is
modelled); Python functions that can raise become `Option`-valued, with
`none` standing for a raised exception.
-/

namespace Ipwraplib

/-! ## Character helpers (ASCII fragment of the Python string methods) -/

/-- The whitespace characters recognised by Python's `str.split()`,
`str.strip()` and the regex class `\s` (ASCII fragment). -/
def isSpaceChar (c : Char) : Bool :=
  c == ' ' || c == '\t' || c == '\n' || c == '\r' || c == '\u000B' || c == '\u000C'

/-- ASCII lower-casing, as done by Python's `str.lower()` (and by
case-insensitive regex matching) on ASCII text. -/
def lowerChar (c : Char) : Char := c.toLower

/-- ASCII upper-casing, as done by Python's `str.upper()` on ASCII text. -/
def upperChar (c : Char) : Char := c.toUpper

/-- Decimal digit character for a digit value below 10 (used when printing
numbers, as Python's `str`/`bin` do). -/
def digitChar : Nat → Char
  | 0 => '0' | 1 => '1' | 2 => '2' | 3 => '3' | 4 => '4'
  | 5 => '5' | 6 => '6' | 7 => '7' | 8 => '8' | 9 => '9'
  | _ => '*'

/-- Numeric value of a digit character, covering the decimal digits and the
hex letters accepted by Python's `int(s, base)`. -/
def charVal (c : Char) : Nat :=
  if c.isDigit then c.toNat - 48
  else if 'a' ≤ c ∧ c ≤ 'f' then c.toNat - 87
  else if 'A' ≤ c ∧ c ≤ 'F' then c.toNat - 55
  else 0

/-- Digit loop with an explicit fuel argument (structural recursion, so
that concrete numerals evaluate by kernel reduction).  With `2 ≤ b` the
quotient `n / b` is below any fuel that covers `n`, so the fuel never runs
out when it starts at `n` (`toDigitsAux_fuel` below). -/
def toDigitsAux (b : Nat) : Nat → Nat → List Char
  | _, 0 => []
  | 0, _ + 1 => []
  | fuel + 1, n + 1 =>
    if 2 ≤ b then toDigitsAux b fuel ((n + 1) / b) ++ [digitChar ((n + 1) % b)]
    else []

/-- Digits of `n` in base `b` (most significant first, empty for `n = 0`);
the recursion underlying Python's numeral printing. -/
def toDigitsBase (b : Nat) (n : Nat) : List Char :=
  toDigitsAux b n n

/-- The numeral of `n` in base `b`: Python's `str(n)` for `b = 10` and
`bin(n)[2:]` for `b = 2` (both print `0` as `"0"`). -/
def pyNumeral (b : Nat) (n : Nat) : List Char :=
  if n = 0 then ['0'] else toDigitsBase b n

/-- Value of a digit string in base `b` (the accumulator loop of
`int(s, base)` once the string has been validated). -/
def valBase (b : Nat) (s : List Char) : Nat :=
  s.foldl (fun a c => b * a + charVal c) 0

/-! ## String splitting and stripping (Python `str` methods) -/

/-- Split at every character satisfying `p`, keeping empty pieces. -/
def splitOnPred (p : Char → Bool) : List Char → List (List Char)
  | [] => [[]]
  | c :: rest =>
    match splitOnPred p rest with
    | [] => [[]]
    | g :: gs => if p c then [] :: g :: gs else (c :: g) :: gs

/-- Python's `s.split(sep)` for a one-character separator: splits at every
occurrence, keeping empty pieces (`''.split('.') == ['']`). -/
def splitOnChar (sep : Char) (s : List Char) : List (List Char) :=
  splitOnPred (fun c => c == sep) s

/-- Python's `s.split()` with no separator: split at every whitespace
character and drop the empty pieces — equivalently, the non-empty maximal
runs of non-whitespace. -/
def splitWS (s : List Char) : List (List Char) :=
  (splitOnPred isSpaceChar s).filter (fun g => !g.isEmpty)

/-- Python's `s.lstrip()` restricted to whitespace. -/
def lstripWS (s : List Char) : List Char := s.dropWhile isSpaceChar

/-- Python's `s.rstrip()` (whitespace form). -/
def rstripWS (s : List Char) : List Char := (s.reverse.dropWhile isSpaceChar).reverse

/-- Python's `s.strip()`. -/
def stripWS (s : List Char) : List Char := rstripWS (lstripWS s)

/-- Python's `s.rstrip('\r\n')`: remove trailing carriage returns and
newlines (any number, in any order). -/
def rstripCRLF (s : List Char) : List Char :=
  (s.reverse.dropWhile (fun c => c == '\r' || c == '\n')).reverse

/-- A character that does not terminate a line for `str.splitlines()`
(ASCII fragment: `\n`, `\r` and `\r\n` are the line boundaries). -/
def notNewline (c : Char) : Bool := c != '\n' && c != '\r'

/-- Accumulator loop for `splitlines`: `acc` holds the characters of the
current line in reverse.  A terminator at the very end of the input closes
the current line without starting a new one. -/
def splitlinesGo (acc : List Char) : List Char → List (List Char)
  | [] => [acc.reverse]
  | '\r' :: '\n' :: r => acc.reverse :: (if r = [] then [] else splitlinesGo [] r)
  | '\r' :: r => acc.reverse :: (if r = [] then [] else splitlinesGo [] r)
  | '\n' :: r => acc.reverse :: (if r = [] then [] else splitlinesGo [] r)
  | c :: r => splitlinesGo (c :: acc) r

/-- Python's `s.splitlines()` (ASCII fragment): split at `\n`, `\r` or
`\r\n`; a trailing terminator produces no extra empty line, and
`''.splitlines() == []`. -/
def splitlines (s : List Char) : List (List Char) :=
  if s = [] then [] else splitlinesGo [] s

/-- The suffix of `s` after the last occurrence of the pattern `pat`
(`none` if `pat` does not occur).  Used to embed the effect of a greedy
leading `.*` in the wifi regexes. -/
def afterLastOcc (pat : List Char) : List Char → Option (List Char)
  | [] => if pat = [] then some [] else none
  | c :: rest =>
    match afterLastOcc pat rest with
    | some r => some r
    | none =>
      if pat.isPrefixOf (c :: rest) then some ((c :: rest).drop pat.length)
      else none

/-- Python's `a.join(pieces)` for separator `"."`. -/
def joinDots : List (List Char) → List Char
  | [] => []
  | [x] => x
  | x :: xs => x ++ '.' :: joinDots xs

/-! ## Python `int(s)` / `int(s, base)` (ASCII fragment)

`int` strips surrounding whitespace, accepts one optional sign, in base 2
an optional `0b`/`0B` prefix and in base 16 an optional `0x`/`0X` prefix,
and then requires a non-empty run of digits of the base.  (Underscore
digit grouping and non-ASCII digits are not modelled; none of the inputs
of interest contain them.)  A `none` result models a raised `ValueError`. -/

/-- Remove a leading `0b`/`0x`-style base marker (`p` is the lower-case
marker letter). -/
def stripBaseMarker (p : Char) : List Char → List Char
  | '0' :: c :: r => if c = p ∨ c = p.toUpper then r else '0' :: c :: r
  | s => s

/-- Digit-validity check and optional base marker for `int(s, b)`. -/
def pyIntCore (b : Nat) (pfx : Option Char) (isDig : Char → Bool)
    (core : List Char) : Option Int :=
  let core2 :=
    match pfx with
    | some p => stripBaseMarker p core
    | none => core
  if core2 ≠ [] ∧ core2.all isDig then some (valBase b core2 : Nat) else none

/-- Handle the optional single sign accepted by `int`. -/
def pyIntSigned (f : List Char → Option Int) : List Char → Option Int
  | '+' :: rest => f rest
  | '-' :: rest => (f rest).map (fun i => -i)
  | rest => f rest

/-- Python's `int(s, b)` for base `b` (ASCII fragment, see above). -/
def pyIntBase (b : Nat) (pfx : Option Char) (isDig : Char → Bool)
    (s : List Char) : Option Int :=
  pyIntSigned (pyIntCore b pfx isDig) (stripWS s)

/-- Python's `int(s)` (base 10). -/
def pyIntDec (s : List Char) : Option Int := pyIntBase 10 none Char.isDigit s

/-- Characters of binary numerals. -/
def isBinDigit (c : Char) : Bool := c == '0' || c == '1'

/-- Python's `int(s, 2)`. -/
def pyIntBin (s : List Char) : Option Int := pyIntBase 2 (some 'b') isBinDigit s

/-- Characters accepted as hex digits by `int(s, 16)`. -/
def isHexDigitChar (c : Char) : Bool :=
  c.isDigit || ('a' ≤ c && c ≤ 'f') || ('A' ≤ c && c ≤ 'F')

/-- Python's `int(s, 16)`. -/
def pyIntHex (s : List Char) : Option Int := pyIntBase 16 (some 'x') isHexDigitChar s

/-- Python's `str(i)` for an integer. -/
def pyIntRepr (i : Int) : List Char :=
  if i < 0 then '-' :: pyNumeral 10 (-i).toNat else pyNumeral 10 i.toNat

/-- Python's `bin(i)[2:]`: for `i ≥ 0` the binary numeral; for `i < 0` the
slice drops `-0` of `-0b…`, leaving a leading `b`. -/
def pyBinSlice (i : Int) : List Char :=
  if i < 0 then 'b' :: pyNumeral 2 (-i).toNat else pyNumeral 2 i.toNat

/-! ## IP codec (`ip_to_bin`, `bin_to_ip`, `int_to_ip`, `pad_binary`)

Source: `ipwraplib.py`, lines 198–225. -/

/-- The source's `pad_binary(bin_str, length)`: left-pad with `'0'` up to `length`
(`'0' * (length-len(bin_str))` is empty when the string is already longer,
exactly like truncated `Nat` subtraction). -/
def pad_binary (bin_str : List Char) (length : Nat) : List Char :=
  List.replicate (length - bin_str.length) '0' ++ bin_str

/-- The source's `ip_to_bin(ip_str)`: split on `'.'`, convert each part with `int`,
append each part's `bin(...)[2:]` padded to 8 characters.  There is no
check that there are exactly 4 parts nor that each part is in `[0, 255]`;
the only failure (`none`, a `ValueError` in Python) is a part that `int`
cannot parse. -/
def ip_to_bin (ip_str : List Char) : Option (List Char) :=
  (splitOnChar '.' ip_str).foldlM
    (fun bin_str byte_int_str => do
      let byte_int ← pyIntDec byte_int_str
      pure (bin_str ++ pad_binary (pyBinSlice byte_int) 8))
    []

/-- The source's `bin_to_ip(ip_bin)`: read the four 8-character slices at offsets
0, 8, 16, 24 with `int(_, 2)` and join their decimal forms with dots.
`none` models the `ValueError` that `int` raises on an empty or
non-binary slice. -/
def bin_to_ip (ip_bin : List Char) : Option (List Char) := do
  let b0 ← pyIntBin (((ip_bin.drop 0).take 8))
  let b1 ← pyIntBin (((ip_bin.drop 8).take 8))
  let b2 ← pyIntBin (((ip_bin.drop 16).take 8))
  let b3 ← pyIntBin (((ip_bin.drop 24).take 8))
  pure (joinDots [pyIntRepr b0, pyIntRepr b1, pyIntRepr b2, pyIntRepr b3])

/-- The source's `int_to_ip(ip_int)`: binary numeral, padded to 32 characters, then
`bin_to_ip`.  (The pad is a no-op for values of 33 bits or more, in which
case `bin_to_ip` silently drops the low bits.) -/
def int_to_ip (ip_int : Nat) : Option (List Char) :=
  bin_to_ip (pad_binary (pyNumeral 2 ip_int) 32)

/-! ## Subnet calculator (`mask_ip`)

Source: `ipwraplib.py`, lines 173–195. -/

/-- The source's `mask_ip(ip, prefix_len)` with an explicit integer prefix length.
`mask_bin = '1'*prefix_len + '0'*(32-prefix_len)` — for a negative prefix
length a Python string repetition is empty, which `Int.toNat` mirrors.
The parses of `ip_bin` and `mask_bin` can only produce non-negative
values (neither string ever starts with `'-'`), so the `Int.toNat`
conversions before the bitwise arithmetic are exact. -/
def mask_ip (ip : List Char) (prefix_len : Int) : Option (List Char × List Char) := do
  let ip_bin ← ip_to_bin ip
  let ip_int ← pyIntBin ip_bin
  let mask_bin := List.replicate prefix_len.toNat '1'
                  ++ List.replicate (32 - prefix_len).toNat '0'
  let mask_int ← pyIntBin mask_bin
  let lower_bound_int := ip_int.toNat &&& mask_int.toNat
  let subnet_int := 0xFFFFFFFF ^^^ mask_int.toNat
  let upper_bound_int := lower_bound_int + subnet_int
  let lower_bound_str ← int_to_ip lower_bound_int
  let upper_bound_str ← int_to_ip upper_bound_int
  pure (lower_bound_str, upper_bound_str)

/-- The source's `mask_ip(cidr)` with a single CIDR-notation argument: `ip.split('/')`
must produce exactly two pieces (otherwise the tuple unpacking raises,
modelled as `none`), the second of which is parsed with `int`. -/
def mask_ip_cidr (cidr : List Char) : Option (List Char × List Char) :=
  match splitOnChar '/' cidr with
  | [ip, prefix_len_str] => do
      let prefix_len ← pyIntDec prefix_len_str
      mask_ip ip prefix_len
  | _ => none

/-! ## Wifi status parser (`get_wifi_info`)

Source: `ipwraplib.py`, lines 10–51.  The three regexes of the line loop
are embedded as executable functions; each doc comment derives the
function from its regex. -/

/-- Embeds `re.search(r'^(\S+)\s+\S', line)`: the line must start with a
non-empty run of non-whitespace (the captured interface name), followed by
at least one whitespace character, followed by a non-whitespace
character.  The greedy `\S+` with the mandatory following `\s` forces the
capture to be the entire leading non-whitespace run. -/
def ifaceOf (line : List Char) : Option (List Char) :=
  let tok := line.takeWhile (fun c => !isSpaceChar c)
  let rest := line.dropWhile (fun c => !isSpaceChar c)
  if tok ≠ [] ∧ rest.dropWhile isSpaceChar ≠ [] then some tok else none

/-- Characters of the class `[a-fA-F0-9:]`. -/
def isMacChar (c : Char) : Bool :=
  c.isDigit || ('a' ≤ c && c ≤ 'f') || ('A' ≤ c && c ≤ 'F') || c == ':'

/-- Embeds `re.search(r'^.*access point: ([a-fA-F0-9:]+)\s*$', line, re.I)`:
after discarding trailing whitespace (`\s*$`), the capture must be the
maximal non-empty suffix run of `[a-fA-F0-9:]` characters (the character
before the run, the `' '` that ends the label, is not in the class, and
the run must reach the end of the stripped line), and the text
immediately before the run must end with `access point: `
case-insensitively. -/
def macOf (line : List Char) : Option (List Char) :=
  let core := rstripWS line
  let run := (core.reverse.takeWhile isMacChar).reverse
  let pre := (core.reverse.dropWhile isMacChar).reverse
  if run ≠ [] ∧ ("access point: ".data).isSuffixOf (pre.map lowerChar)
  then some run else none

/-- Embeds `re.search(r'^.*SSID:"(.*)"\s*$', line)`: after discarding trailing
whitespace the line must end with `'"'`; the greedy leading `.*` places
the label at its last occurrence, so the capture is the text strictly
between the last `SSID:"` and the final quote. -/
def ssidOf (line : List Char) : Option (List Char) :=
  match (rstripWS line).reverse with
  | '"' :: bodyRev => afterLastOcc ("SSID:\"".data) bodyRev.reverse
  | _ => none

/-- The accumulator of the `get_wifi_info` line loop. -/
structure WifiState where
  iface : Option (List Char)
  ssid : Option (List Char)
  mac : Option (List Char)
deriving Repr, DecidableEq

/-- Python truthiness of an optional string: `None` and `''` are falsy
(the loop guards are `if not mac:` / `if not ssid:`). -/
def optFalsy : Option (List Char) → Bool
  | none => true
  | some s => s.isEmpty

/-- One iteration of the `get_wifi_info` loop body (without the final
`break` test): update the interface, then the MAC (only if still falsy),
then the SSID (only if still falsy). -/
def wifiStep (st : WifiState) (line : List Char) : WifiState :=
  let st1 := match ifaceOf line with
    | some t => { st with iface := some t }
    | none => st
  let st2 := if optFalsy st1.mac then
      match macOf line with
      | some m => { st1 with mac := some m }
      | none => st1
    else st1
  if optFalsy st2.ssid then
    match ssidOf line with
    | some s => { st2 with ssid := some s }
    | none => st2
  else st2

/-- The `break` condition: `ssid is not None and mac is not None`. -/
def wifiDone (st : WifiState) : Bool := st.ssid.isSome && st.mac.isSome

/-- The `get_wifi_info` line loop with its early `break`. -/
def wifiScan (st : WifiState) : List (List Char) → WifiState
  | [] => st
  | line :: rest =>
    let st' := wifiStep st line
    if wifiDone st' then st' else wifiScan st' rest

/-- Parsing phase of `get_wifi_info` on captured command output: scan
`output.splitlines()` starting from three `None`s and return the
accumulated `(interface, ssid, mac)`. -/
def get_wifi_info (output : List Char) :
    Option (List Char) × Option (List Char) × Option (List Char) :=
  let st := wifiScan ⟨none, none, none⟩ (splitlines output)
  (st.iface, st.ssid, st.mac)

/-! ## Default route parser (`get_default_route`)

Source: `ipwraplib.py`, lines 54–84. -/

/-- The whitespace fields of one routing-table line
(`line.rstrip('\r\n').split()`). -/
def routeFields (line : List Char) : List (List Char) :=
  splitWS (rstripCRLF line)

/-- The `get_default_route` line loop: skip lines with fewer than 7
fields; on the first line with `fields[0] == 'default'`,
`fields[1] == 'via'` and `fields[3] == 'dev'` return
`(interface, ip) = (fields[4], fields[2])` and stop. -/
def routeScan : List (List Char) → Option (List Char) × Option (List Char)
  | [] => (none, none)
  | line :: rest =>
    let fields := routeFields line
    if fields.length < 7 then routeScan rest
    else if fields.getD 0 [] = "default".data ∧ fields.getD 1 [] = "via".data
            ∧ fields.getD 3 [] = "dev".data
    then (some (fields.getD 4 []), some (fields.getD 2 []))
    else routeScan rest

/-- Parsing phase of `get_default_route` on captured command output. -/
def get_default_route (output : List Char) :
    Option (List Char) × Option (List Char) :=
  routeScan (splitlines output)

/-! ## ARP table parser (`get_arp_table`)

Source: `ipwraplib.py`, lines 118–145.  The file-read collaborator hands
the parser an iterable of lines, modelled as a `List (List Char)`. -/

/-- One ARP table entry (the dict built on lines 143–144; `hwtype` and
`flags` are the `int(_, 16)` values, `mac` is upper-cased). -/
structure ArpEntry where
  ip : List Char
  hwtype : Int
  flags : Int
  mac : List Char
  mask : List Char
  iface : List Char
deriving Repr, DecidableEq

/-- Python's `table[ip] = entry` on a Python dict modelled as an insertion-ordered
association list: an existing key is overwritten in place, a new key is
appended. -/
def dictInsert (k : List Char) (v : ArpEntry) (d : List (List Char × ArpEntry)) :
    List (List Char × ArpEntry) :=
  if d.any (fun p => p.1 = k) then d.map (fun p => if p.1 = k then (k, v) else p)
  else d ++ [(k, v)]

/-- Python `d[k]` / `k in d` on the association-list model. -/
def dictFind (d : List (List Char × ArpEntry)) (k : List Char) : Option ArpEntry :=
  (d.find? (fun p => p.1 = k)).map (fun p => p.2)

/-- Parse one non-header ARP line: unpack exactly six whitespace fields
(otherwise the `ValueError` of tuple unpacking skips the line), upper-case
the MAC, parse `hwtype` and `flags` in base 16 (a `ValueError` again
skips the whole line). -/
def arpLineEntry (line : List Char) : Option (List Char × ArpEntry) :=
  match splitWS (rstripCRLF line) with
  | [ip, hwtype, flags, mac, mask, iface] =>
    match pyIntHex hwtype, pyIntHex flags with
    | some h, some f => some (ip, ⟨ip, h, f, mac.map upperChar, mask, iface⟩)
    | _, _ => none
  | _ => none

/-- Fold one line into the table. -/
def arpFoldLine (table : List (List Char × ArpEntry)) (line : List Char) :
    List (List Char × ArpEntry) :=
  match arpLineEntry line with
  | some (ip, entry) => dictInsert ip entry table
  | none => table

/-- The source's `get_arp_table`: skip the first line unconditionally (the header),
then fold every remaining line into the table. -/
def get_arp_table (lines : List (List Char)) : List (List Char × ArpEntry) :=
  match lines with
  | [] => []
  | _header :: rest => rest.foldl arpFoldLine []

/-! ## Command-backed facade (`get_wifi_info`, `get_default_route`,
`dig_ip`, `dns_query`)

Source: `ipwraplib.py`, lines 10–115.  Executing the external command is
the excluded OS collaborator; its outcome is passed in as an
`Except`.  The `except (OSError, subprocess.CalledProcessError)` handlers
turn every such failure into the all-`None` sentinel. -/

/-- The failures of `subprocess.check_output` that the library catches:
`OSError` (e.g. executable not found) and `subprocess.CalledProcessError`
(non-zero exit status). -/
inductive ExecFailure
  | osError
  | calledProcessError (returncode : Int)
deriving Repr, DecidableEq

/-- The full `get_wifi_info` given the outcome of the `iwconfig` call. -/
def get_wifi_info_cmd (res : Except ExecFailure (List Char)) :
    Option (List Char) × Option (List Char) × Option (List Char) :=
  match res with
  | .error _ => (none, none, none)
  | .ok output => get_wifi_info output

/-- The full `get_default_route` given the outcome of the `ip route show` call. -/
def get_default_route_cmd (res : Except ExecFailure (List Char)) :
    Option (List Char) × Option (List Char) :=
  match res with
  | .error _ => (none, none)
  | .ok output => get_default_route output

/-- Parsing phase of `dig_ip`: the loop body returns on its first
iteration, so the result is the first output line, stripped — or `None`
when there is no line at all. -/
def dig_ip_out (output : List Char) : Option (List Char) :=
  match splitlines output with
  | [] => none
  | line :: _ => some (stripWS line)

/-- The full `dig_ip` given the outcome of the `dig` call. -/
def dig_ip_cmd (res : Except ExecFailure (List Char)) : Option (List Char) :=
  match res with
  | .error _ => none
  | .ok output => dig_ip_out output

/-- The `socket.error` family caught by `dns_query` (`socket.gaierror`,
`socket.herror`, `socket.timeout` are all subclasses). -/
inductive SocketFailure
  | gaierror (code : Int)
  | herror (code : Int)
  | timedOut
  | other
deriving Repr, DecidableEq

/-- The full `dns_query` given the outcome of `socket.gethostbyname`: the resolved
address on success, `None` on any `socket.error`. -/
def dns_query_res (res : Except SocketFailure (List Char)) : Option (List Char) :=
  match res with
  | .error _ => none
  | .ok addr => some addr

/-! ## Spec-side values used by the claims -/

/-- The canonical dotted-decimal text of four octets. -/
def ipDotted (a b c d : Nat) : List Char :=
  pyNumeral 10 a ++
    ('.' :: (pyNumeral 10 b ++ ('.' :: (pyNumeral 10 c ++ ('.' :: pyNumeral 10 d)))))

/-- The 32-bit integer form of four octets. -/
def ipVal (a b c d : Nat) : Nat := ((a * 256 + b) * 256 + c) * 256 + d

/-- Dotted-decimal text of a 32-bit value (the spec's `formatIPv4`). -/
def ipRepr (n : Nat) : List Char :=
  ipDotted (n / 2 ^ 24 % 256) (n / 2 ^ 16 % 256) (n / 2 ^ 8 % 256) (n % 256)

/-- The netmask of a prefix length: `prefixLen` leading 1-bits followed by
`32 - prefixLen` 0-bits. -/
def maskVal (p : Nat) : Nat := (2 ^ p - 1) * 2 ^ (32 - p)

/-! ## Lemmas: digits, numerals and `valBase` -/

theorem charVal_digitChar {d : Nat} (h : d < 10) : charVal (digitChar d) = d := by
  interval_cases d <;> decide

theorem digitChar_isDigit {d : Nat} (h : d < 10) : (digitChar d).isDigit = true := by
  interval_cases d <;> decide

theorem toDigitsAux_zero (b fuel : Nat) : toDigitsAux b fuel 0 = [] := by
  cases fuel <;> rfl

theorem toDigitsAux_fuel (b : Nat) (hb : 2 ≤ b) :
    ∀ f1 f2 n, n ≤ f1 → n ≤ f2 → toDigitsAux b f1 n = toDigitsAux b f2 n := by
  intro f1
  induction f1 with
  | zero =>
    intro f2 n h1 _
    interval_cases n
    simp [toDigitsAux_zero]
  | succ k ih =>
    intro f2 n h1 h2
    match n, f2 with
    | 0, f2 => simp [toDigitsAux_zero]
    | m + 1, f2 + 1 =>
      show toDigitsAux b (k + 1) (m + 1) = toDigitsAux b (f2 + 1) (m + 1)
      have hd : (m + 1) / b < m + 1 := Nat.div_lt_self (Nat.succ_pos m) (by omega)
      simp only [toDigitsAux, if_pos hb]
      have hq : (m + 1) / b ≤ m := by omega
      have hm2 : m ≤ f2 := by omega
      rw [ih f2 ((m + 1) / b) (by omega) (by omega)]

theorem toDigitsBase_zero (b : Nat) : toDigitsBase b 0 = [] := rfl

theorem toDigitsBase_eq {b n : Nat} (hb : 2 ≤ b) (hn : n ≠ 0) :
    toDigitsBase b n = toDigitsBase b (n / b) ++ [digitChar (n % b)] := by
  obtain ⟨m, rfl⟩ : ∃ m, n = m + 1 := ⟨n - 1, by omega⟩
  show toDigitsAux b (m + 1) (m + 1) = _
  have hd : (m + 1) / b < m + 1 := Nat.div_lt_self (Nat.succ_pos m) (by omega)
  simp only [toDigitsAux, if_pos hb]
  rw [toDigitsAux_fuel b hb m ((m + 1) / b) ((m + 1) / b) (by omega) (le_refl _)]
  rfl

theorem valBase_foldl_acc (b : Nat) :
    ∀ (t : List Char) (a : Nat),
      t.foldl (fun a c => b * a + charVal c) a = a * b ^ t.length + valBase b t := by
  intro t
  induction t with
  | nil => intro a; simp [valBase]
  | cons c t ih =>
    intro a
    have hv : valBase b (c :: t) = charVal c * b ^ t.length + valBase b t := by
      show t.foldl (fun a c => b * a + charVal c) (b * 0 + charVal c)
           = charVal c * b ^ t.length + valBase b t
      rw [ih]
      ring_nf
    show t.foldl (fun a c => b * a + charVal c) (b * a + charVal c) = _
    rw [ih, hv]
    simp [List.length_cons]
    ring

theorem valBase_append (b : Nat) (s t : List Char) :
    valBase b (s ++ t) = valBase b s * b ^ t.length + valBase b t := by
  show (s ++ t).foldl _ 0 = _
  rw [List.foldl_append]
  exact valBase_foldl_acc b t _

theorem valBase_nil (b : Nat) : valBase b [] = 0 := rfl

theorem valBase_singleton (b : Nat) (c : Char) : valBase b [c] = charVal c := by
  show b * 0 + charVal c = charVal c
  omega

theorem val_toDigitsBase {b : Nat} (hb : 2 ≤ b) (hb10 : b ≤ 10) :
    ∀ n, valBase b (toDigitsBase b n) = n := by
  intro n
  induction n using Nat.strong_induction_on with
  | _ n ih =>
    by_cases hn : n = 0
    · subst hn; simp [toDigitsBase_zero, valBase_nil]
    · have hmod : n % b < 10 := lt_of_lt_of_le (Nat.mod_lt _ (by omega)) hb10
      rw [toDigitsBase_eq hb hn, valBase_append, valBase_singleton,
          charVal_digitChar hmod,
          ih (n / b) (Nat.div_lt_self (by omega) (by omega))]
      simp only [List.length_singleton, pow_one]
      have hdm := Nat.div_add_mod n b
      rw [Nat.mul_comm b (n / b)] at hdm
      omega

theorem toDigitsBase_mem {b : Nat} (hb : 2 ≤ b) :
    ∀ n, ∀ c ∈ toDigitsBase b n, ∃ d, d < b ∧ c = digitChar d := by
  intro n
  induction n using Nat.strong_induction_on with
  | _ n ih =>
    intro c hc
    by_cases hn : n = 0
    · subst hn; simp [toDigitsBase_zero] at hc
    · rw [toDigitsBase_eq hb hn] at hc
      rcases List.mem_append.mp hc with h | h
      · exact ih (n / b) (Nat.div_lt_self (by omega) (by omega)) c h
      · exact ⟨n % b, Nat.mod_lt _ (by omega), by simpa using h⟩

theorem toDigitsBase_ne_nil {b n : Nat} (hb : 2 ≤ b) (hn : n ≠ 0) :
    toDigitsBase b n ≠ [] := by
  rw [toDigitsBase_eq hb hn]
  simp

theorem toDigitsBase_length {b : Nat} (hb : 2 ≤ b) :
    ∀ k n, n < b ^ k → (toDigitsBase b n).length ≤ k := by
  intro k
  induction k with
  | zero =>
    intro n hn
    have h0 : n = 0 := by simpa using hn
    subst h0
    simp [toDigitsBase_zero]
  | succ k ih =>
    intro n hn
    by_cases h0 : n = 0
    · subst h0; simp [toDigitsBase_zero]
    · rw [toDigitsBase_eq hb h0]
      have : n / b < b ^ k := by
        rw [Nat.div_lt_iff_lt_mul (by omega : 0 < b)]
        calc n < b ^ (k + 1) := hn
        _ = b ^ k * b := by ring
      simpa using ih (n / b) this

theorem val_pyNumeral {b : Nat} (hb : 2 ≤ b) (hb10 : b ≤ 10) (n : Nat) :
    valBase b (pyNumeral b n) = n := by
  by_cases hn : n = 0
  · subst hn; simp [pyNumeral, valBase_singleton]; decide
  · simp only [pyNumeral, if_neg hn]
    exact val_toDigitsBase hb hb10 n

theorem pyNumeral_ne_nil {b n : Nat} (hb : 2 ≤ b) : pyNumeral b n ≠ [] := by
  by_cases hn : n = 0
  · subst hn; simp [pyNumeral]
  · simp only [pyNumeral, if_neg hn]
    exact toDigitsBase_ne_nil hb hn

theorem pyNumeral_mem {b : Nat} (hb : 2 ≤ b) (n : Nat) :
    ∀ c ∈ pyNumeral b n, ∃ d, d < b ∧ c = digitChar d := by
  intro c hc
  by_cases hn : n = 0
  · subst hn
    simp [pyNumeral] at hc
    exact ⟨0, by omega, by simp [hc, digitChar]⟩
  · simp only [pyNumeral, if_neg hn] at hc
    exact toDigitsBase_mem hb n c hc

theorem pyNumeral_length_le {b n k : Nat} (hb : 2 ≤ b) (hk : 1 ≤ k)
    (hn : n < b ^ k) : (pyNumeral b n).length ≤ k := by
  by_cases h0 : n = 0
  · subst h0; simpa [pyNumeral] using hk
  · simp only [pyNumeral, if_neg h0]
    exact toDigitsBase_length hb k n hn

theorem valBase_lt {b : Nat} (hb : 1 ≤ b) :
    ∀ s : List Char, (∀ c ∈ s, charVal c < b) → valBase b s < b ^ s.length := by
  intro s
  induction s with
  | nil => intro _; simpa [valBase_nil] using Nat.pos_pow_of_pos 0 (by omega)
  | cons c t ih =>
    intro h
    have hc : charVal c < b := h c (List.mem_cons_self c t)
    have ht : valBase b t < b ^ t.length := ih (fun x hx => h x (List.mem_cons_of_mem c hx))
    have hv : valBase b (c :: t) = charVal c * b ^ t.length + valBase b t := by
      show t.foldl _ (b * 0 + charVal c) = _
      rw [valBase_foldl_acc]
      ring_nf
    rw [hv, List.length_cons, pow_succ]
    calc charVal c * b ^ t.length + valBase b t
        < charVal c * b ^ t.length + b ^ t.length := by omega
      _ = (charVal c + 1) * b ^ t.length := by ring
      _ ≤ b * b ^ t.length := by
          exact Nat.mul_le_mul_right _ (by omega)
      _ = b ^ t.length * b := by ring

theorem valBase_replicate_zero (b k : Nat) : valBase b (List.replicate k '0') = 0 := by
  induction k with
  | zero => rfl
  | succ k ih =>
    rw [List.replicate_succ', valBase_append, ih, valBase_singleton]
    have h0 : charVal '0' = 0 := by decide
    rw [h0]
    simp

theorem valBase_replicate_one (k : Nat) : valBase 2 (List.replicate k '1') = 2 ^ k - 1 := by
  induction k with
  | zero => rfl
  | succ k ih =>
    rw [List.replicate_succ', valBase_append, ih, valBase_singleton]
    have : charVal '1' = 1 := by decide
    rw [this]
    simp only [List.length_singleton, pow_one]
    have : 1 ≤ 2 ^ k := Nat.one_le_two_pow
    rw [pow_succ]
    omega

theorem pad_binary_length {s : List Char} {k : Nat} (h : s.length ≤ k) :
    (pad_binary s k).length = k := by
  simp [pad_binary]
  omega

theorem valBase_pad (b : Nat) (s : List Char) (k : Nat) :
    valBase b (pad_binary s k) = valBase b s := by
  rw [pad_binary, valBase_append, valBase_replicate_zero]
  simp

theorem pad_binary_mem {s : List Char} {k : Nat} {c : Char}
    (h : c ∈ pad_binary s k) : c = '0' ∨ c ∈ s := by
  rcases List.mem_append.mp h with h | h
  · exact Or.inl (List.eq_of_mem_replicate h)
  · exact Or.inr h

/-! ## Lemmas: character classes -/

theorem isBinDigit_of_digitChar {d : Nat} (h : d < 2) : isBinDigit (digitChar d) = true := by
  interval_cases d <;> decide

theorem mem_pyNumeral2_isBinDigit {n : Nat} {c : Char} (h : c ∈ pyNumeral 2 n) :
    isBinDigit c = true := by
  obtain ⟨d, hd, rfl⟩ := pyNumeral_mem (by omega) n c h
  exact isBinDigit_of_digitChar hd

theorem isBinDigit_isDigit {c : Char} (h : isBinDigit c = true) : c.isDigit = true := by
  rcases Bool.or_eq_true_iff.mp h with h | h
  · rw [show c = '0' from beq_iff_eq.mp h]; decide
  · rw [show c = '1' from beq_iff_eq.mp h]; decide

theorem isDigit_not_space {c : Char} (h : c.isDigit = true) : isSpaceChar c = false := by
  have h48 : 48 ≤ c.toNat ∧ c.toNat ≤ 57 := by
    simp only [Char.isDigit, decide_eq_true_eq, Bool.and_eq_true] at h
    exact ⟨h.1, h.2⟩
  simp only [isSpaceChar, Bool.or_eq_false_iff, beq_eq_false_iff_ne]
  refine ⟨⟨⟨⟨⟨?_, ?_⟩, ?_⟩, ?_⟩, ?_⟩, ?_⟩ <;>
    (intro hc; subst hc; revert h48; decide)

theorem isDigit_ne {c c' : Char} (h : c.isDigit = true) (h' : c'.isDigit = false) :
    c ≠ c' := by
  intro hc; subst hc; rw [h] at h'; cases h'

/-! ## Lemmas: stripping and `int` parsing -/

theorem dropWhile_eq_self_of {p : Char → Bool} {s : List Char}
    (h : ∀ c ∈ s, p c = false) : s.dropWhile p = s := by
  cases s with
  | nil => rfl
  | cons c t =>
    exact List.dropWhile_cons_of_neg (by simp [h c (List.mem_cons_self c t)])

theorem stripWS_eq_self {s : List Char} (h : ∀ c ∈ s, isSpaceChar c = false) :
    stripWS s = s := by
  rw [stripWS, lstripWS, dropWhile_eq_self_of h, rstripWS,
      dropWhile_eq_self_of (fun c hc => h c (List.mem_reverse.mp hc)),
      List.reverse_reverse]

theorem stripBaseMarker_eq_self {p : Char} {isDig : Char → Bool} {s : List Char}
    (hall : s.all isDig = true) (hp : isDig p = false)
    (hP : isDig p.toUpper = false) : stripBaseMarker p s = s := by
  match s with
  | [] => rfl
  | [c] =>
    show stripBaseMarker p [c] = [c]
    unfold stripBaseMarker
    split
    · rename_i heq
      cases heq
    · rfl
  | c1 :: c2 :: r =>
    show stripBaseMarker p (c1 :: c2 :: r) = c1 :: c2 :: r
    unfold stripBaseMarker
    split
    · rename_i heq
      injection heq with h1 h2
      injection h2 with h2 h3
      subst h1; subst h2; subst h3
      have hc2 : isDig c2 = true := by
        simp [List.all_eq_true] at hall
        exact hall.2.1
      rw [if_neg]
      rintro (rfl | rfl)
      · rw [hp] at hc2; cases hc2
      · rw [hP] at hc2; cases hc2
    · rfl

theorem pyIntSigned_no_sign {f : List Char → Option Int} {s : List Char}
    (h1 : ∀ r, s ≠ '+' :: r) (h2 : ∀ r, s ≠ '-' :: r) :
    pyIntSigned f s = f s := by
  match s with
  | [] => rfl
  | c :: rest =>
    unfold pyIntSigned
    split
    · rename_i heq
      exact absurd heq (by injection heq with hc _; exact fun _ => h1 rest (by rw [hc]))
    · rename_i heq
      exact absurd heq (by injection heq with hc _; exact fun _ => h2 rest (by rw [hc]))
    · rfl

theorem pyIntCore_none {b : Nat} {isDig : Char → Bool} {s : List Char}
    (hne : s ≠ []) (hall : s.all isDig = true) :
    pyIntCore b none isDig s = some ((valBase b s : Nat) : Int) := by
  simp [pyIntCore, hne, hall]

theorem pyIntCore_some {b : Nat} {p : Char} {isDig : Char → Bool} {s : List Char}
    (hne : s ≠ []) (hall : s.all isDig = true) (hp : isDig p = false)
    (hP : isDig p.toUpper = false) :
    pyIntCore b (some p) isDig s = some ((valBase b s : Nat) : Int) := by
  simp [pyIntCore, stripBaseMarker_eq_self hall hp hP, hne, hall]

theorem pyIntDec_of_digits {s : List Char} (hne : s ≠ [])
    (hall : s.all Char.isDigit = true) :
    pyIntDec s = some ((valBase 10 s : Nat) : Int) := by
  have hmem : ∀ c ∈ s, c.isDigit = true := List.all_eq_true.mp hall
  have hstrip : stripWS s = s :=
    stripWS_eq_self (fun c hc => isDigit_not_space (hmem c hc))
  have hhead : ∀ (x : Char) r, s = x :: r → x.isDigit = true := by
    intro x r hx
    exact hmem x (hx ▸ List.mem_cons_self x r)
  rw [pyIntDec, pyIntBase, hstrip,
      pyIntSigned_no_sign
        (fun r hr => absurd (hhead _ r hr) (by decide))
        (fun r hr => absurd (hhead _ r hr) (by decide)),
      pyIntCore_none hne hall]

theorem pyIntDec_pyNumeral (n : Nat) : pyIntDec (pyNumeral 10 n) = some (n : Int) := by
  have hmem : ∀ c ∈ pyNumeral 10 n, c.isDigit = true := by
    intro c hc
    obtain ⟨d, hd, rfl⟩ := pyNumeral_mem (by omega) n c hc
    exact digitChar_isDigit hd
  rw [pyIntDec_of_digits (pyNumeral_ne_nil (by omega)) (List.all_eq_true.mpr hmem),
      val_pyNumeral (by omega) (by omega)]

theorem pyIntBin_of_binDigits {s : List Char} (hne : s ≠ [])
    (hall : s.all isBinDigit = true) :
    pyIntBin s = some ((valBase 2 s : Nat) : Int) := by
  have hmem : ∀ c ∈ s, isBinDigit c = true := List.all_eq_true.mp hall
  have hdig : ∀ c ∈ s, c.isDigit = true :=
    fun c hc => isBinDigit_isDigit (hmem c hc)
  have hstrip : stripWS s = s :=
    stripWS_eq_self (fun c hc => isDigit_not_space (hdig c hc))
  have hhead : ∀ (x : Char) r, s = x :: r → x.isDigit = true := by
    intro x r hx
    exact hdig x (hx ▸ List.mem_cons_self x r)
  rw [pyIntBin, pyIntBase, hstrip,
      pyIntSigned_no_sign
        (fun r hr => absurd (hhead _ r hr) (by decide))
        (fun r hr => absurd (hhead _ r hr) (by decide)),
      pyIntCore_some hne hall (by decide) (by decide)]

/-! ## Lemmas: splitting -/

theorem splitOnPred_ne_nil (p : Char → Bool) (s : List Char) :
    splitOnPred p s ≠ [] := by
  cases s with
  | nil => simp [splitOnPred]
  | cons c rest =>
    unfold splitOnPred
    split
    · simp
    · split <;> simp

theorem splitOnPred_no_sep {p : Char → Bool} {s : List Char}
    (h : ∀ c ∈ s, p c = false) : splitOnPred p s = [s] := by
  induction s with
  | nil => rfl
  | cons c rest ih =>
    have hrest := ih (fun x hx => h x (List.mem_cons_of_mem c hx))
    unfold splitOnPred
    rw [hrest]
    simp [h c (List.mem_cons_self c rest)]

theorem splitOnPred_append_sep {p : Char → Bool} {xs : List Char} {sep : Char}
    {ys : List Char} (h : ∀ c ∈ xs, p c = false) (hs : p sep = true) :
    splitOnPred p (xs ++ sep :: ys) = xs :: splitOnPred p ys := by
  induction xs with
  | nil =>
    show splitOnPred p (sep :: ys) = [] :: splitOnPred p ys
    have hunf : splitOnPred p (sep :: ys)
        = match splitOnPred p ys with
          | [] => [[]]
          | g :: gs => if p sep then [] :: g :: gs else (sep :: g) :: gs := rfl
    rcases hne : splitOnPred p ys with _ | ⟨g, gs⟩
    · exact absurd hne (splitOnPred_ne_nil p ys)
    · rw [hunf, hne]
      show (if p sep then [] :: g :: gs else (sep :: g) :: gs) = _
      rw [if_pos hs]
  | cons x xs ih =>
    have hxs := ih (fun c hc => h c (List.mem_cons_of_mem x hc))
    show splitOnPred p (x :: (xs ++ sep :: ys)) = (x :: xs) :: splitOnPred p ys
    have hunf : splitOnPred p (x :: (xs ++ sep :: ys))
        = match splitOnPred p (xs ++ sep :: ys) with
          | [] => [[]]
          | g :: gs => if p x then [] :: g :: gs else (x :: g) :: gs := rfl
    rw [hunf, hxs]
    show (if p x then [] :: xs :: splitOnPred p ys
          else (x :: xs) :: splitOnPred p ys) = _
    rw [if_neg (by simp [h x (List.mem_cons_self x xs)])]

theorem splitOnChar_dot_ipDotted {a b c d : Nat} :
    splitOnChar '.' (ipDotted a b c d) =
      [pyNumeral 10 a, pyNumeral 10 b, pyNumeral 10 c, pyNumeral 10 d] := by
  have hno : ∀ n : Nat, ∀ x ∈ pyNumeral 10 n, (x == '.') = false := by
    intro n x hx
    obtain ⟨e, he, rfl⟩ := pyNumeral_mem (by omega) n x hx
    have : (digitChar e).isDigit = true := digitChar_isDigit (by omega)
    simp only [beq_eq_false_iff_ne]
    exact isDigit_ne this (by decide)
  rw [ipDotted, splitOnChar,
      splitOnPred_append_sep (hno a) (by simp),
      splitOnPred_append_sep (hno b) (by simp),
      splitOnPred_append_sep (hno c) (by simp),
      splitOnPred_no_sep (hno d)]

/-! ## Lemmas: the IP codec on canonical input -/

/-- The padded 8-character binary form of one octet. -/
def octetBits (x : Nat) : List Char := pad_binary (pyNumeral 2 x) 8

theorem octetBits_length {x : Nat} (hx : x ≤ 255) : (octetBits x).length = 8 :=
  pad_binary_length (pyNumeral_length_le (by omega) (by omega) (by omega))

theorem octetBits_val (x : Nat) : valBase 2 (octetBits x) = x := by
  rw [octetBits, valBase_pad, val_pyNumeral (by omega) (by omega)]

theorem octetBits_binDigits (x : Nat) : ∀ c ∈ octetBits x, isBinDigit c = true := by
  intro c hc
  rcases pad_binary_mem hc with rfl | hc
  · decide
  · exact mem_pyNumeral2_isBinDigit hc

theorem ip_to_bin_ipDotted (a b c d : Nat) :
    ip_to_bin (ipDotted a b c d) =
      some (octetBits a ++ octetBits b ++ octetBits c ++ octetBits d) := by
  rw [ip_to_bin, splitOnChar_dot_ipDotted]
  simp only [List.foldlM, bind, Option.bind, pyIntDec_pyNumeral]
  have hslice : ∀ x : Nat, pad_binary (pyBinSlice (x : Int)) 8 = octetBits x := by
    intro x
    rw [pyBinSlice, if_neg (by omega), octetBits]
    norm_num
  rw [hslice, hslice, hslice, hslice]
  simp

theorem fourOctets_all_binDigit (a b c d : Nat) :
    ∀ x ∈ octetBits a ++ octetBits b ++ octetBits c ++ octetBits d,
      isBinDigit x = true := by
  intro x hx
  simp only [List.mem_append] at hx
  rcases hx with ((h | h) | h) | h <;> exact octetBits_binDigits _ x h

theorem fourOctets_val {a b c d : Nat} (ha : a ≤ 255) (hb : b ≤ 255)
    (hc : c ≤ 255) (hd : d ≤ 255) :
    valBase 2 (octetBits a ++ octetBits b ++ octetBits c ++ octetBits d)
      = ipVal a b c d := by
  rw [valBase_append, valBase_append, valBase_append]
  rw [octetBits_val, octetBits_val, octetBits_val, octetBits_val,
      octetBits_length hb, octetBits_length hc, octetBits_length hd]
  rw [ipVal]
  ring

/-! ## Lemmas: bitwise arithmetic of the subnet calculator -/

theorem isBinDigit_charVal_lt {c : Char} (h : isBinDigit c = true) : charVal c < 2 := by
  rcases Bool.or_eq_true_iff.mp h with h | h
  · rw [show c = '0' from beq_iff_eq.mp h]; decide
  · rw [show c = '1' from beq_iff_eq.mp h]; decide

theorem maskBits_parse {p : Nat} (hp : p ≤ 32) :
    pyIntBin (List.replicate p '1' ++ List.replicate (32 - p) '0')
      = some ((maskVal p : Nat) : Int) := by
  have hne : List.replicate p '1' ++ List.replicate (32 - p) '0' ≠ [] := by
    intro h
    have := congrArg List.length h
    simp at this
    omega
  have hall : (List.replicate p '1' ++ List.replicate (32 - p) '0').all isBinDigit = true := by
    rw [List.all_eq_true]
    intro c hc
    rcases List.mem_append.mp hc with h | h
    · rw [List.eq_of_mem_replicate h]; decide
    · rw [List.eq_of_mem_replicate h]; decide
  rw [pyIntBin_of_binDigits hne hall, valBase_append, valBase_replicate_one,
      valBase_replicate_zero, maskVal]
  simp

theorem xFFFFFFFF_eq : (4294967295 : Nat) = 2 ^ 32 - 1 := by norm_num

theorem xor_maskVal {p : Nat} (hp : p ≤ 32) :
    (2 ^ 32 - 1) ^^^ maskVal p = 2 ^ (32 - p) - 1 := by
  apply Nat.eq_of_testBit_eq
  intro i
  have hm : maskVal p = (2 ^ p - 1) <<< (32 - p) := by
    rw [Nat.shiftLeft_eq, maskVal]
  rw [Nat.testBit_xor, hm, Nat.testBit_shiftLeft, Nat.testBit_two_pow_sub_one,
      Nat.testBit_two_pow_sub_one, Nat.testBit_two_pow_sub_one]
  rcases Nat.lt_or_ge i (32 - p) with h | h
  · have h2 : i < 32 := by omega
    have h3 : ¬(32 - p ≤ i) := by omega
    simp [h, h2, h3]
  · rcases Nat.lt_or_ge i 32 with h2 | h2
    · have h4 : i - (32 - p) < p := by omega
      simp [h, h2, h4, show ¬(i < 32 - p) by omega]
    · have h3 : ¬(i < 32) := by omega
      have h4 : ¬(i - (32 - p) < p) := by omega
      simp [h, h3, h4, show ¬(i < 32 - p) by omega]

theorem lower_add_eq_or (addr : Nat) {p : Nat} (hp : p ≤ 32) :
    (addr &&& maskVal p) + (2 ^ (32 - p) - 1)
      = (addr &&& maskVal p) ||| (2 ^ (32 - p) - 1) := by
  have hmask0 : maskVal p &&& (2 ^ (32 - p) - 1) = 0 := by
    rw [Nat.and_pow_two_sub_one_eq_mod, maskVal]
    exact Nat.mul_mod_left _ _
  have hmod : (addr &&& maskVal p) % 2 ^ (32 - p) = 0 := by
    rw [← Nat.and_pow_two_sub_one_eq_mod, Nat.and_assoc, hmask0]
    simp
  have hq : addr &&& maskVal p
      = 2 ^ (32 - p) * ((addr &&& maskVal p) / 2 ^ (32 - p)) := by
    have hdm := Nat.div_add_mod (addr &&& maskVal p) (2 ^ (32 - p))
    omega
  rw [hq]
  exact Nat.mul_add_lt_is_or
    (Nat.sub_lt (Nat.pos_pow_of_pos _ (by omega)) Nat.one_pos) _

/-! ## Lemmas: `int_to_ip` on 32-bit values -/

theorem valBase_take_drop (b : Nat) (s : List Char) (k : Nat) :
    valBase b s = valBase b (s.take k) * b ^ (s.drop k).length
      + valBase b (s.drop k) := by
  conv_lhs => rw [← List.take_append_drop k s]
  rw [valBase_append]

theorem bytes_unique {v0 v1 v2 v3 n : Nat}
    (h : n = v0 * 16777216 + v1 * 65536 + v2 * 256 + v3)
    (h0 : v0 < 256) (h1 : v1 < 256) (h2 : v2 < 256) (h3 : v3 < 256) :
    v0 = n / 16777216 % 256 ∧ v1 = n / 65536 % 256
      ∧ v2 = n / 256 % 256 ∧ v3 = n % 256 := by
  omega

theorem int_to_ip_of_lt {n : Nat} (hn : n < 2 ^ 32) :
    int_to_ip n = some (ipRepr n) := by
  set s := pad_binary (pyNumeral 2 n) 32 with hs
  have hlen : s.length = 32 :=
    pad_binary_length (pyNumeral_length_le (by omega) (by omega) hn)
  have hall : ∀ c ∈ s, isBinDigit c = true := by
    intro c hc
    rcases pad_binary_mem hc with rfl | hc
    · decide
    · exact mem_pyNumeral2_isBinDigit hc
  have hval : valBase 2 s = n := by
    rw [hs, valBase_pad, val_pyNumeral (by omega) (by omega)]
  -- the four slices read by `bin_to_ip`
  set t0 := (s.drop 0).take 8 with ht0
  set t1 := (s.drop 8).take 8 with ht1
  set t2 := (s.drop 16).take 8 with ht2
  set t3 := (s.drop 24).take 8 with ht3
  have hsliceAll : ∀ k, ∀ c ∈ (s.drop k).take 8, isBinDigit c = true :=
    fun k c hc => hall c (List.drop_subset k s (List.take_subset 8 _ hc))
  have hlen0 : t0.length = 8 := by simp [ht0, hlen]
  have hlen1 : t1.length = 8 := by simp [ht1, hlen]
  have hlen2 : t2.length = 8 := by simp [ht2, hlen]
  have hlen3 : t3.length = 8 := by simp [ht3, hlen]
  have hvlt : ∀ (t : List Char), (∀ c ∈ t, isBinDigit c = true) → t.length = 8 →
      valBase 2 t < 256 := by
    intro t hmem hl
    have := valBase_lt (by omega)
      t (fun c hc => isBinDigit_charVal_lt (hmem c hc))
    rw [hl] at this
    norm_num at this
    exact this
  have hv0 : valBase 2 t0 < 256 := hvlt t0 (hsliceAll 0) hlen0
  have hv1 : valBase 2 t1 < 256 := hvlt t1 (hsliceAll 8) hlen1
  have hv2 : valBase 2 t2 < 256 := hvlt t2 (hsliceAll 16) hlen2
  have hv3 : valBase 2 t3 < 256 := hvlt t3 (hsliceAll 24) hlen3
  -- decompose the value of `s` into the slice values
  have hd8 : (s.drop 0).drop 8 = s.drop 8 := by simp
  have hd16 : (s.drop 8).drop 8 = s.drop 16 := by rw [List.drop_drop]
  have hd24 : (s.drop 16).drop 8 = s.drop 24 := by rw [List.drop_drop]
  have hlast : t3 = s.drop 24 :=
    List.take_of_length_le (by simp [hlen])
  have hdec : n = valBase 2 t0 * 16777216 + valBase 2 t1 * 65536
      + valBase 2 t2 * 256 + valBase 2 t3 := by
    have e0 := valBase_take_drop 2 (s.drop 0) 8
    have e1 := valBase_take_drop 2 (s.drop 8) 8
    have e2 := valBase_take_drop 2 (s.drop 16) 8
    rw [hd8] at e0
    rw [hd16] at e1
    rw [hd24] at e2
    simp only [List.drop_zero] at e0
    rw [← ht1] at e1
    rw [← ht2] at e2
    have hL8 : (s.drop 8).length = 24 := by simp [hlen]
    have hL16 : (s.drop 16).length = 16 := by simp [hlen]
    have hL24 : (s.drop 24).length = 8 := by simp [hlen]
    rw [hL8] at e0
    rw [hL16] at e1
    rw [hL24] at e2
    have ht0' : s.take 8 = t0 := by rw [ht0]; simp
    rw [ht0'] at e0
    rw [← hlast] at e2
    rw [hval] at e0
    rw [e1, e2] at e0
    rw [e0]
    norm_num
    ring
  obtain ⟨hb0, hb1, hb2, hb3⟩ :=
    bytes_unique hdec hv0 hv1 hv2 hv3
  -- evaluate `bin_to_ip`
  have hp : ∀ (t : List Char), t.length = 8 → (∀ c ∈ t, isBinDigit c = true) →
      pyIntBin t = some ((valBase 2 t : Nat) : Int) := by
    intro t hl hmem
    exact pyIntBin_of_binDigits (by intro h; rw [h] at hl; simp at hl)
      (List.all_eq_true.mpr hmem)
  rw [int_to_ip, bin_to_ip, ← hs,
      hp t0 hlen0 (hsliceAll 0), hp t1 hlen1 (hsliceAll 8),
      hp t2 hlen2 (hsliceAll 16), hp t3 hlen3 (hsliceAll 24)]
  show some (joinDots [pyIntRepr _, pyIntRepr _, pyIntRepr _, pyIntRepr _]) = _
  have hrepr : ∀ v : Nat, pyIntRepr ((v : Nat) : Int) = pyNumeral 10 v := by
    intro v
    rw [pyIntRepr, if_neg (by omega)]
    simp
  rw [hrepr, hrepr, hrepr, hrepr]
  have hjoin : ∀ w x y z : List Char,
      joinDots [w, x, y, z] = w ++ ('.' :: (x ++ ('.' :: (y ++ ('.' :: z))))) := by
    intro w x y z
    rfl
  rw [hjoin, ipRepr, ipDotted, hb0, hb1, hb2, hb3]
  norm_num

/-! ## Supporting facts for the claim theorems -/

theorem fourOctets_ne_nil {a b c d : Nat} (ha : a ≤ 255) (hb : b ≤ 255)
    (hc : c ≤ 255) (hd : d ≤ 255) :
    octetBits a ++ octetBits b ++ octetBits c ++ octetBits d ≠ [] := by
  intro h
  have := congrArg List.length h
  simp [octetBits_length, ha, hb, hc, hd] at this

theorem pyIntBin_fourOctets {a b c d : Nat} (ha : a ≤ 255) (hb : b ≤ 255)
    (hc : c ≤ 255) (hd : d ≤ 255) :
    pyIntBin (octetBits a ++ octetBits b ++ octetBits c ++ octetBits d)
      = some ((ipVal a b c d : Nat) : Int) := by
  rw [pyIntBin_of_binDigits (fourOctets_ne_nil ha hb hc hd)
        (List.all_eq_true.mpr (fourOctets_all_binDigit a b c d)),
      fourOctets_val ha hb hc hd]

theorem ipVal_lt {a b c d : Nat} (ha : a ≤ 255) (hb : b ≤ 255)
    (hc : c ≤ 255) (hd : d ≤ 255) : ipVal a b c d < 2 ^ 32 := by
  rw [ipVal, show (2 : Nat) ^ 32 = 4294967296 from by norm_num]
  omega

theorem ipRepr_ipVal {a b c d : Nat} (ha : a ≤ 255) (hb : b ≤ 255)
    (hc : c ≤ 255) (hd : d ≤ 255) :
    ipRepr (ipVal a b c d) = ipDotted a b c d := by
  rw [ipRepr,
      show ipVal a b c d / 2 ^ 24 % 256 = a by
        rw [ipVal, show (2 : Nat) ^ 24 = 16777216 from by norm_num]; omega,
      show ipVal a b c d / 2 ^ 16 % 256 = b by
        rw [ipVal, show (2 : Nat) ^ 16 = 65536 from by norm_num]; omega,
      show ipVal a b c d / 2 ^ 8 % 256 = c by
        rw [ipVal, show (2 : Nat) ^ 8 = 256 from by norm_num]; omega,
      show ipVal a b c d % 256 = d by rw [ipVal]; omega]

/-! ## Claim theorems: the subnet calculator and the IP codec -/

/-- C1: for every IPv4 address (four octets in `[0,255]`) and every prefix
length in `[0,32]`, `mask_ip` returns the dotted text of
`lower = addr AND mask` and of `upper = lower OR (NOT mask AND 0xFFFFFFFF)`
(the complement of the 32-bit mask is `(2^32 - 1) XOR mask`), where the
mask has `prefixLen` leading 1-bits followed by `32 - prefixLen` 0-bits;
the upper bound the code computes by integer addition coincides with the
OR form.  In particular at `prefixLen = 32` both bounds are `addr` itself,
at `prefixLen = 0` the bounds are `0.0.0.0` and `255.255.255.255`, and
`computeRange("104.39.72.0/22") = (104.39.72.0, 104.39.75.255)`. -/
theorem mask_ip_computes_masked_range (a b c d p : Nat)
    (ha : a ≤ 255) (hb : b ≤ 255) (hc : c ≤ 255) (hd : d ≤ 255) (hp : p ≤ 32) :
    (mask_ip (ipDotted a b c d) (p : Int)
        = some (ipRepr (ipVal a b c d &&& maskVal p),
                ipRepr ((ipVal a b c d &&& maskVal p)
                        ||| ((2 ^ 32 - 1) ^^^ maskVal p))))
    ∧ (p = 32 → ipVal a b c d &&& maskVal p = ipVal a b c d
        ∧ (ipVal a b c d &&& maskVal p) ||| ((2 ^ 32 - 1) ^^^ maskVal p)
            = ipVal a b c d)
    ∧ (p = 0 → ipRepr (ipVal a b c d &&& maskVal p) = "0.0.0.0".data
        ∧ ipRepr ((ipVal a b c d &&& maskVal p) ||| ((2 ^ 32 - 1) ^^^ maskVal p))
            = "255.255.255.255".data)
    ∧ mask_ip_cidr ("104.39.72.0/22".data)
        = some ("104.39.72.0".data, "104.39.75.255".data) := by
  have hlt : ipVal a b c d < 2 ^ 32 := ipVal_lt ha hb hc hd
  have hlower_lt : ipVal a b c d &&& maskVal p < 2 ^ 32 :=
    lt_of_le_of_lt Nat.and_le_left hlt
  have hsub_lt : 2 ^ (32 - p) - 1 < 2 ^ 32 := by
    have := Nat.pow_le_pow_right (show 1 ≤ 2 by omega) (show 32 - p ≤ 32 by omega)
    have h1 : (0 : Nat) < 2 ^ (32 - p) := Nat.pos_pow_of_pos _ (by omega)
    omega
  have hupper_lt : (ipVal a b c d &&& maskVal p) ||| (2 ^ (32 - p) - 1) < 2 ^ 32 :=
    Nat.or_lt_two_pow hlower_lt hsub_lt
  refine ⟨?_, ?_, ?_, ?_⟩
  · -- the main computation
    have htoNat : (p : Int).toNat = p := by omega
    have htoNat32 : ((32 : Int) - (p : Int)).toNat = 32 - p := by omega
    simp only [mask_ip, ip_to_bin_ipDotted, Option.bind_eq_bind, Option.some_bind,
      pyIntBin_fourOctets ha hb hc hd, htoNat, htoNat32, maskBits_parse hp,
      Int.toNat_ofNat]
    rw [xFFFFFFFF_eq, xor_maskVal hp, lower_add_eq_or _ hp,
        int_to_ip_of_lt hlower_lt, Option.some_bind,
        int_to_ip_of_lt hupper_lt, Option.some_bind]
    rfl
  · -- prefixLen = 32: lower = upper = addr
    rintro rfl
    have hm : maskVal 32 = 2 ^ 32 - 1 := by rw [maskVal]; norm_num
    constructor
    · rw [hm, Nat.and_pow_two_sub_one_of_lt_two_pow hlt]
    · rw [hm, Nat.xor_self, Nat.or_zero,
          Nat.and_pow_two_sub_one_of_lt_two_pow hlt]
  · -- prefixLen = 0: bounds are 0.0.0.0 and 255.255.255.255
    rintro rfl
    have hm : maskVal 0 = 0 := by rw [maskVal]; norm_num
    constructor
    · rw [hm, Nat.and_zero]
      decide
    · rw [hm, Nat.and_zero, Nat.xor_zero, Nat.zero_or]
      show ipRepr (2 ^ 32 - 1) = _
      norm_num
      decide
  · -- the worked CIDR example of the spec
    decide

/-- C1 witness: the general theorem applied at `104.39.72.0/22`. -/
theorem mask_ip_computes_masked_range_witness :
    mask_ip (ipDotted 104 39 72 0) ((22 : Nat) : Int)
      = some (ipRepr (ipVal 104 39 72 0 &&& maskVal 22),
              ipRepr ((ipVal 104 39 72 0 &&& maskVal 22)
                      ||| ((2 ^ 32 - 1) ^^^ maskVal 22))) :=
  (mask_ip_computes_masked_range 104 39 72 0 22 (by decide) (by decide)
    (by decide) (by decide) (by decide)).1

/-- C3: for every valid dotted-decimal IPv4 string (four dot-separated
decimal octets, written canonically, each in `[0,255]`), converting the
text to its integer form (`ip_to_bin` then `int(_, 2)`) and back
(`int_to_ip`) returns the original string. -/
theorem ip_text_roundtrip (a b c d : Nat)
    (ha : a ≤ 255) (hb : b ≤ 255) (hc : c ≤ 255) (hd : d ≤ 255) :
    ((ip_to_bin (ipDotted a b c d)).bind pyIntBin).bind
      (fun i => int_to_ip i.toNat) = some (ipDotted a b c d) := by
  rw [ip_to_bin_ipDotted, Option.some_bind, pyIntBin_fourOctets ha hb hc hd,
      Option.some_bind]
  simp only [Int.toNat_ofNat]
  rw [int_to_ip_of_lt (ipVal_lt ha hb hc hd), ipRepr_ipVal ha hb hc hd]

/-- C3 witness: the round trip at `192.168.0.1`. -/
theorem ip_text_roundtrip_witness :
    ((ip_to_bin (ipDotted 192 168 0 1)).bind pyIntBin).bind
      (fun i => int_to_ip i.toNat) = some (ipDotted 192 168 0 1) :=
  ip_text_roundtrip 192 168 0 1 (by decide) (by decide) (by decide) (by decide)

theorem pyIntBin_zeros {k : Nat} (hk : k ≠ 0) :
    pyIntBin (List.replicate k '0') = some ((0 : Nat) : Int) := by
  have hne : List.replicate k '0' ≠ [] := by
    intro h
    have := congrArg List.length h
    simp at this
    exact hk this
  have hall : (List.replicate k '0').all isBinDigit = true := by
    rw [List.all_eq_true]
    intro c hc
    rw [List.eq_of_mem_replicate hc]
    decide
  rw [pyIntBin_of_binDigits hne hall, valBase_replicate_zero]

/-- C4 counterexample: at prefix length `-1` (outside `[0,32]`) `mask_ip`
does not fail with any error — it silently returns a range. -/
theorem mask_ip_accepts_invalid_prefix :
    mask_ip ("1.2.3.4".data) (-1)
      = some ("0.0.0.0".data, "255.255.255.255".data) := by
  decide

/-- C4 amended: `mask_ip` performs no validation of the prefix length.
For every negative prefix length the mask degenerates to all zeros and the
result is the full range `(0.0.0.0, 255.255.255.255)`; at prefix length 33
the 33-bit mask makes the upper bound overflow 32 bits, and the upper
bound text is the corrupted `128.129.1.130` (the top 32 of 33 bits). -/
theorem mask_ip_out_of_range_behavior (p : Int) (hp : p < 0)
    (a b c d : Nat) (ha : a ≤ 255) (hb : b ≤ 255) (hc : c ≤ 255) (hd : d ≤ 255) :
    mask_ip (ipDotted a b c d) p
        = some ("0.0.0.0".data, "255.255.255.255".data)
    ∧ mask_ip ("1.2.3.4".data) 33
        = some ("1.2.3.4".data, "128.129.1.130".data) := by
  constructor
  · have htoNat : p.toNat = 0 := by omega
    have hkne : ((32 : Int) - p).toNat ≠ 0 := by omega
    simp only [mask_ip, ip_to_bin_ipDotted, Option.bind_eq_bind, Option.some_bind,
      pyIntBin_fourOctets ha hb hc hd, htoNat, List.replicate_zero, List.nil_append,
      pyIntBin_zeros hkne, Int.toNat_ofNat]
    rw [Nat.and_zero, Nat.xor_zero, Nat.zero_add,
        int_to_ip_of_lt (show 0 < 2 ^ 32 by norm_num), Option.some_bind,
        int_to_ip_of_lt (show 4294967295 < 2 ^ 32 by norm_num), Option.some_bind]
    show some (ipRepr 0, ipRepr 4294967295) = _
    decide
  · decide

/-- C4 amended witness: the first conjunct at prefix `-1` and `1.2.3.4`. -/
theorem mask_ip_out_of_range_behavior_witness :
    mask_ip (ipDotted 1 2 3 4) (-1)
      = some ("0.0.0.0".data, "255.255.255.255".data) :=
  (mask_ip_out_of_range_behavior (-1) (by decide) 1 2 3 4
    (by decide) (by decide) (by decide) (by decide)).1

/-- C5 counterexample: `ip_to_bin` accepts strings that are not four
dot-separated in-range octets — `"1.2.3"` (three parts) yields a 24-bit
string, and `"300.1.1.1"` (octet 300 out of range) yields a 33-bit
string; neither fails. -/
theorem ip_to_bin_accepts_malformed :
    ip_to_bin ("1.2.3".data) = some ("000000010000001000000011".data)
    ∧ ip_to_bin ("300.1.1.1".data)
        = some ("100101100000000010000000100000001".data) :=
  ⟨by decide, by decide⟩

theorem ip_to_bin_foldlM_none :
    ∀ (parts : List (List Char)) (acc : List Char),
      (parts.foldlM (fun bin_str byte_int_str => do
          let byte_int ← pyIntDec byte_int_str
          pure (bin_str ++ pad_binary (pyBinSlice byte_int) 8)) acc = none
        ↔ ∃ part ∈ parts, pyIntDec part = none) := by
  intro parts
  induction parts with
  | nil => intro acc; simp [List.foldlM]
  | cons q qs ih =>
    intro acc
    rcases hq : pyIntDec q with _ | n
    · simp [List.foldlM, hq]
    · simp only [List.foldlM, hq, Option.bind_eq_bind, Option.some_bind,
        List.mem_cons]
      simp only [Option.pure_def, Option.some_bind]
      have ih' := ih (acc ++ pad_binary (pyBinSlice n) 8)
      simp only [Option.pure_def, Option.bind_eq_bind] at ih' ⊢
      rw [ih']
      constructor
      · intro ⟨part, hmem, hnone⟩
        exact ⟨part, Or.inr hmem, hnone⟩
      · rintro ⟨part, hmem | hmem, hnone⟩
        · rw [hmem, hq] at hnone
          cases hnone
        · exact ⟨part, hmem, hnone⟩

/-- C5 amended: `ip_to_bin` splits on `'.'` and converts each part with
`int`; it fails exactly when some part is not parseable as an integer.
It enforces neither the number of parts nor the `[0,255]` octet range. -/
theorem ip_to_bin_failure_condition (s : List Char) :
    ip_to_bin s = none ↔ ∃ part ∈ splitOnChar '.' s, pyIntDec part = none := by
  rw [ip_to_bin]
  exact ip_to_bin_foldlM_none (splitOnChar '.' s) []

/-- C2 (evidence of the divergence): on wifi output whose line scan ends
without finding both an SSID and a MAC, `get_wifi_info` returns whatever
it accumulated — here the interface of the first line — instead of the
all-`None` result promised by its own docstring ("If you are not
connected to wifi or if an error occurs, returns three None's"). -/
theorem get_wifi_info_partial_result :
    get_wifi_info ("wlan0     IEEE 802.11  ESSID:off/any".data)
      = (some ("wlan0".data), none, none) := by
  decide

/-! ## Claim theorems: the ARP table parser -/

theorem upperChar_not_lower (c : Char) : (upperChar c).isLower = false := by
  rw [upperChar, Char.toUpper]
  split
  · rename_i h
    have hv : (c.toNat - 32).isValidChar := by
      constructor
      omega
    rw [Char.ofNat, dif_pos hv]
    simp [Char.isLower, Char.ofNatAux, UInt32.le_def, BitVec.le_def]
    omega
  · rename_i h
    simp [Char.isLower, Char.toNat, UInt32.le_def, BitVec.le_def, UInt32.toNat]
      at h ⊢
    omega

theorem dictFind_dictInsert (d : List (List Char × ArpEntry)) (k : List Char)
    (v : ArpEntry) : dictFind (dictInsert k v d) k = some v := by
  induction d with
  | nil => simp [dictInsert, dictFind, List.find?]
  | cons p d' ih =>
    obtain ⟨k', v'⟩ := p
    by_cases hk : k' = k
    · subst hk
      rw [dictInsert, if_pos (by simp)]
      simp only [List.map_cons, if_pos rfl]
      simp [dictFind, List.find?]
    · by_cases hany : d'.any (fun p => p.1 = k)
      · rw [dictInsert, if_pos (by simp [hany])]
        simp only [List.map_cons, if_neg hk]
        rw [dictFind, List.find?_cons_of_neg _ (by simp [hk]), ← dictFind]
        rw [dictInsert, if_pos hany] at ih
        exact ih
      · rw [dictInsert, if_neg (by simp [hk, hany])]
        rw [List.cons_append, dictFind,
            List.find?_cons_of_neg _ (by simp [hk]), ← dictFind]
        rw [dictInsert, if_neg (by simp [hany])] at ih
        exact ih

/-- C6: the ARP parser skips the first line unconditionally; for each
subsequent line it splits on whitespace and changes the table only when
the line yields exactly 6 fields with `hwtype` and `flags` parsing in
base 16 (otherwise the line contributes nothing); a kept line inserts an
entry keyed by its `ip` with the MAC upper-cased; and an insertion under
an existing key overwrites that key's entry. -/
theorem get_arp_table_algorithm :
    (∀ h h' rest, get_arp_table (h :: rest) = get_arp_table (h' :: rest))
    ∧ (∀ h rest line,
        get_arp_table (h :: (rest ++ [line]))
          = match splitWS (rstripCRLF line) with
            | [ip, hwtype, flags, mac, mask, iface] =>
              (match pyIntHex hwtype, pyIntHex flags with
               | some hv, some fv =>
                   dictInsert ip ⟨ip, hv, fv, mac.map upperChar, mask, iface⟩
                     (get_arp_table (h :: rest))
               | _, _ => get_arp_table (h :: rest))
            | _ => get_arp_table (h :: rest))
    ∧ (∀ d k v, dictFind (dictInsert k v d) k = some v) := by
  refine ⟨fun h h' rest => rfl, ?_, fun d k v => dictFind_dictInsert d k v⟩
  intro h rest line
  show (rest ++ [line]).foldl arpFoldLine [] = _
  rw [List.foldl_append]
  show arpFoldLine (get_arp_table (h :: rest)) line = _
  rw [arpFoldLine, arpLineEntry]
  set fs := splitWS (rstripCRLF line) with hfs
  clear_value fs
  rcases fs with _ | ⟨f1, _ | ⟨f2, _ | ⟨f3, _ | ⟨f4, _ | ⟨f5, _ | ⟨f6, _ | ⟨f7, fs⟩⟩⟩⟩⟩⟩⟩ <;>
    try rfl
  dsimp only
  rcases h2 : pyIntHex f2 with _ | hv <;> rcases h3 : pyIntHex f3 with _ | fv <;>
    rfl

theorem mem_dictInsert {pr : List Char × ArpEntry} {k : List Char}
    {v : ArpEntry} {d : List (List Char × ArpEntry)}
    (h : pr ∈ dictInsert k v d) : pr = (k, v) ∨ pr ∈ d := by
  rw [dictInsert] at h
  split at h
  · rcases List.mem_map.mp h with ⟨q, hq, hfq⟩
    by_cases hqk : q.1 = k
    · rw [if_pos hqk] at hfq
      exact Or.inl hfq.symm
    · rw [if_neg hqk] at hfq
      exact Or.inr (hfq ▸ hq)
  · rcases List.mem_append.mp h with h | h
    · exact Or.inr h
    · exact Or.inl (by simpa using h)

theorem arpLineEntry_shape {line ip : List Char} {e : ArpEntry}
    (h : arpLineEntry line = some (ip, e)) :
    e.ip = ip ∧ ∀ ch ∈ e.mac, ch.isLower = false := by
  rw [arpLineEntry] at h
  set fs := splitWS (rstripCRLF line) with hfs
  clear_value fs
  rcases fs with _ | ⟨f1, _ | ⟨f2, _ | ⟨f3, _ | ⟨f4, _ | ⟨f5, _ | ⟨f6, _ | ⟨f7, fs⟩⟩⟩⟩⟩⟩⟩ <;>
    dsimp only at h <;> try cases h
  rcases h2 : pyIntHex f2 with _ | hv <;> rcases h3 : pyIntHex f3 with _ | fv <;>
    rw [h2, h3] at h <;> dsimp only at h <;> cases h
  refine ⟨rfl, ?_⟩
  intro ch hch
  rcases List.mem_map.mp hch with ⟨c, _, rfl⟩
  exact upperChar_not_lower c

theorem arp_foldl_inv (P : List Char × ArpEntry → Prop)
    (hstep : ∀ line ip e, arpLineEntry line = some (ip, e) → P (ip, e)) :
    ∀ (rest : List (List Char)) (t : List (List Char × ArpEntry)),
      (∀ pr ∈ t, P pr) → ∀ pr ∈ rest.foldl arpFoldLine t, P pr := by
  intro rest
  induction rest with
  | nil => intro t ht pr hpr; exact ht pr hpr
  | cons line rest ih =>
    intro t ht pr hpr
    rw [List.foldl_cons] at hpr
    refine ih (arpFoldLine t line) ?_ pr hpr
    intro q hq
    rw [arpFoldLine] at hq
    rcases harp : arpLineEntry line with _ | ⟨ip, e⟩
    · rw [harp] at hq
      exact ht q hq
    · rw [harp] at hq
      rcases mem_dictInsert hq with rfl | hq
      · exact hstep line ip e harp
      · exact ht q hq

/-- C10: in every table returned by `get_arp_table`, each key maps to an
entry whose `ip` field equals the key, and the entry's MAC contains no
lowercase letter.  (That each entry consists of exactly the six fields
`ip`, `hwtype`, `flags`, `mac`, `mask`, `interface` with `hwtype` and
`flags` integers is enforced by the `ArpEntry` structure itself, whose
shape is the dict literal of the source.) -/
theorem get_arp_table_entry_invariant (lines : List (List Char)) :
    ∀ pr ∈ get_arp_table lines,
      pr.2.ip = pr.1 ∧ ∀ ch ∈ pr.2.mac, ch.isLower = false := by
  rcases lines with _ | ⟨h, rest⟩
  · intro pr hpr; cases hpr
  · intro pr hpr
    refine arp_foldl_inv
      (fun pr => pr.2.ip = pr.1 ∧ ∀ ch ∈ pr.2.mac, ch.isLower = false)
      ?_ rest [] ?_ pr hpr
    · intro line ip e harp
      exact arpLineEntry_shape harp
    · intro q hq
      cases hq

/-- C10 witness: the invariant on the worked example of the spec,
a header plus `10.0.0.5 0x1 0x2 aa:bb:cc:dd:ee:ff * eth0`. -/
theorem get_arp_table_entry_invariant_witness :
    (("10.0.0.5".data,
        (⟨"10.0.0.5".data, 1, 2, "AA:BB:CC:DD:EE:FF".data, "*".data,
          "eth0".data⟩ : ArpEntry)) ∈
      get_arp_table
        ["IP address       HW type     Flags       HW address            Mask     Device".data,
         "10.0.0.5 0x1 0x2 aa:bb:cc:dd:ee:ff * eth0".data])
    ∧ (("10.0.0.5".data : List Char)
          = "10.0.0.5".data
        ∧ ∀ ch ∈ ("AA:BB:CC:DD:EE:FF".data : List Char), ch.isLower = false) := by
  constructor
  · decide
  · exact get_arp_table_entry_invariant
      ["IP address       HW type     Flags       HW address            Mask     Device".data,
       "10.0.0.5 0x1 0x2 aa:bb:cc:dd:ee:ff * eth0".data]
      ("10.0.0.5".data,
        ⟨"10.0.0.5".data, 1, 2, "AA:BB:CC:DD:EE:FF".data, "*".data, "eth0".data⟩)
      (by decide)

/-! ## Claim theorems: the default-route parser -/

/-- The match condition of the `get_default_route` loop, as a predicate on
one line: at least 7 whitespace fields with `fields[0] == 'default'`,
`fields[1] == 'via'` and `fields[3] == 'dev'`. -/
def routeLineMatches (line : List Char) : Bool :=
  let fields := routeFields line
  decide (7 ≤ fields.length) && (fields.getD 0 [] == "default".data)
    && (fields.getD 1 [] == "via".data) && (fields.getD 3 [] == "dev".data)

theorem routeScan_find :
    ∀ lines : List (List Char),
      routeScan lines
        = match lines.find? routeLineMatches with
          | some line => (some ((routeFields line).getD 4 []),
                          some ((routeFields line).getD 2 []))
          | none => (none, none) := by
  intro lines
  induction lines with
  | nil => rfl
  | cons l rest ih =>
    by_cases hlen : (routeFields l).length < 7
    · have hm : routeLineMatches l = false := by
        have hdec : decide (7 ≤ (routeFields l).length) = false := by
          simp
          omega
        simp [routeLineMatches, hdec]
      rw [routeScan, if_pos hlen, List.find?_cons_of_neg _ (by simp [hm]), ih]
    · by_cases hpat : (routeFields l).getD 0 [] = "default".data
          ∧ (routeFields l).getD 1 [] = "via".data
          ∧ (routeFields l).getD 3 [] = "dev".data
      · have hm : routeLineMatches l = true := by
          rw [routeLineMatches]
          dsimp only
          rw [hpat.1, hpat.2.1, hpat.2.2]
          simp
          omega
        rw [routeScan, if_neg hlen, if_pos hpat, List.find?_cons_of_pos _ hm]
      · have hm : routeLineMatches l = false := by
          rcases Bool.eq_false_or_eq_true (routeLineMatches l) with h | h
          · exfalso
            simp only [routeLineMatches, Bool.and_eq_true, decide_eq_true_eq,
              beq_iff_eq] at h
            exact hpat ⟨h.1.1.2, h.1.2, h.2⟩
          · exact h
        rw [routeScan, if_neg hlen, if_neg hpat,
            List.find?_cons_of_neg _ (by simp [hm]), ih]

/-- C8: the default-route parser splits each line on whitespace, skips
lines with fewer than 7 fields, and returns
`(interface, gateway) = (fields[4], fields[2])` from the first line with
`fields[0] = "default"`, `fields[1] = "via"`, `fields[3] = "dev"`
(first match wins); with no matching line both results are absent. -/
theorem get_default_route_first_match (output : List Char) :
    get_default_route output
      = match (splitlines output).find? routeLineMatches with
        | some line => (some ((routeFields line).getD 4 []),
                        some ((routeFields line).getD 2 []))
        | none => (none, none) := by
  rw [get_default_route]
  exact routeScan_find (splitlines output)

/-! ## Claim theorems: failure handling of the command-backed facade -/

/-- C9: for every caught failure of the underlying command or resolver
(`OSError` — e.g. executable not found — or `CalledProcessError` for the
commands, any `socket.error` for the resolver), each best-effort lookup
returns its all-absent/`None` sentinel; no such exception escapes.  (The
`try/except` blocks of the source are total on this failure type, which is
exactly the tuple of exception classes they catch.) -/
theorem lookup_failures_all_absent :
    (∀ e : ExecFailure, get_wifi_info_cmd (Except.error e) = (none, none, none))
    ∧ (∀ e : ExecFailure, get_default_route_cmd (Except.error e) = (none, none))
    ∧ (∀ e : ExecFailure, dig_ip_cmd (Except.error e) = none)
    ∧ (∀ e : SocketFailure, dns_query_res (Except.error e) = none) :=
  ⟨fun _ => rfl, fun _ => rfl, fun _ => rfl, fun _ => rfl⟩

/-! ## Claim theorems: the wifi-status parser -/

theorem wifiStep_iface (st : WifiState) (l : List Char) :
    (wifiStep st l).iface
      = match ifaceOf l with
        | some t => some t
        | none => st.iface := by
  unfold wifiStep
  rcases ifaceOf l with _ | t <;> dsimp only <;> repeat' split
  all_goals rfl

theorem foldl_wifiStep_iface :
    ∀ (ls : List (List Char)) (st : WifiState),
      (List.foldl wifiStep st ls).iface
        = match (ls.filterMap ifaceOf).getLast? with
          | some t => some t
          | none => st.iface := by
  intro ls
  induction ls with
  | nil => intro st; rfl
  | cons l ls ih =>
    intro st
    rw [List.foldl_cons, ih]
    rcases hif : ifaceOf l with _ | t
    · rw [List.filterMap_cons_none hif]
      rcases hlast : (ls.filterMap ifaceOf).getLast? with _ | t'
      · rw [wifiStep_iface, hif]
      · rfl
    · rw [List.filterMap_cons_some hif]
      rcases hlast : (ls.filterMap ifaceOf).getLast? with _ | t'
      · have hnil : ls.filterMap ifaceOf = [] :=
          List.getLast?_eq_none_iff.mp hlast
        rw [hnil, List.getLast?_singleton, wifiStep_iface, hif]
      · have hne : ls.filterMap ifaceOf ≠ [] := by
          intro h
          rw [h] at hlast
          cases hlast
        rcases hcons : ls.filterMap ifaceOf with _ | ⟨u, us⟩
        · exact absurd hcons hne
        · rw [hcons] at hlast
          rw [List.getLast?_cons_cons, hlast]

theorem wifiScan_fold :
    ∀ (lines : List (List Char)) (st : WifiState) (k : Nat),
      wifiDone st = false →
      wifiDone (List.foldl wifiStep st (lines.take k)) = true →
      (∀ j < k, wifiDone (List.foldl wifiStep st (lines.take j)) = false) →
      wifiScan st lines = List.foldl wifiStep st (lines.take k) := by
  intro lines
  induction lines with
  | nil =>
    intro st k h0 hk _
    rw [List.take_nil, List.foldl_nil] at hk
    rw [h0] at hk
    cases hk
  | cons l rest ih =>
    intro st k h0 hk hmin
    rcases k with _ | k'
    · rw [List.take_zero, List.foldl_nil] at hk
      rw [h0] at hk
      cases hk
    · rw [List.take_succ_cons, List.foldl_cons] at hk ⊢
      by_cases hd : wifiDone (wifiStep st l) = true
      · have hk0 : k' = 0 := by
          by_contra hne
          have h1 : 1 < k' + 1 := by omega
          have := hmin 1 h1
          rw [show (l :: rest).take 1 = [l] from rfl] at this
          rw [show List.foldl wifiStep st [l] = wifiStep st l from rfl] at this
          rw [hd] at this
          cases this
        subst hk0
        rw [List.take_zero, List.foldl_nil]
        rw [wifiScan, if_pos hd]
      · rw [wifiScan, if_neg (by simp [hd])]
        refine ih (wifiStep st l) k' (by simpa using hd) hk ?_
        intro j hj
        have := hmin (j + 1) (by omega)
        rw [List.take_succ_cons, List.foldl_cons] at this
        exact this

/-- C7: whenever scanning the wifi-status lines reaches a first point at
which both an SSID and a MAC have been found (index `k` is the first
prefix length whose accumulated state is complete — the two need not come
from the same line), the scan stops there and returns that accumulated
state, whose interface is the most recent interface-name line seen in the
scanned prefix (whatever block it belonged to).  On the spec's example —
one block with `ESSID:"home"` and `Access Point: AA:BB:CC:DD:EE:FF` on
separate lines after the interface line — the parser returns
`("wlan0", "home", "AA:BB:CC:DD:EE:FF")`. -/
theorem get_wifi_info_stops_when_both_found :
    (∀ (lines : List (List Char)) (k : Nat),
      wifiDone (List.foldl wifiStep ⟨none, none, none⟩ (lines.take k)) = true →
      (∀ j < k,
        wifiDone (List.foldl wifiStep ⟨none, none, none⟩ (lines.take j)) = false) →
      wifiScan ⟨none, none, none⟩ lines
          = List.foldl wifiStep ⟨none, none, none⟩ (lines.take k)
        ∧ (wifiScan ⟨none, none, none⟩ lines).iface
            = match ((lines.take k).filterMap ifaceOf).getLast? with
              | some t => some t
              | none => none)
    ∧ get_wifi_info
        ("wlan0     IEEE 802.11abgn\n          ESSID:\"home\"\n          Mode:Managed  Access Point: AA:BB:CC:DD:EE:FF\n".data)
        = (some ("wlan0".data), some ("home".data),
           some ("AA:BB:CC:DD:EE:FF".data)) := by
  constructor
  · intro lines k hk hmin
    have heq := wifiScan_fold lines ⟨none, none, none⟩ k rfl hk hmin
    refine ⟨heq, ?_⟩
    rw [heq, foldl_wifiStep_iface]
  · decide

/-- C7 witness: the quantified part applied to the example lines at the
first completion point `k = 3`. -/
theorem get_wifi_info_stops_when_both_found_witness :
    wifiScan ⟨none, none, none⟩
        ["wlan0     IEEE 802.11abgn".data,
         "          ESSID:\"home\"".data,
         "          Mode:Managed  Access Point: AA:BB:CC:DD:EE:FF".data]
      = List.foldl wifiStep ⟨none, none, none⟩
          (["wlan0     IEEE 802.11abgn".data,
            "          ESSID:\"home\"".data,
            "          Mode:Managed  Access Point: AA:BB:CC:DD:EE:FF".data].take 3)
    ∧ (wifiScan ⟨none, none, none⟩
        ["wlan0     IEEE 802.11abgn".data,
         "          ESSID:\"home\"".data,
         "          Mode:Managed  Access Point: AA:BB:CC:DD:EE:FF".data]).iface
      = match ((["wlan0     IEEE 802.11abgn".data,
                 "          ESSID:\"home\"".data,
                 "          Mode:Managed  Access Point: AA:BB:CC:DD:EE:FF".data].take 3).filterMap
                ifaceOf).getLast? with
        | some t => some t
        | none => none :=
  get_wifi_info_stops_when_both_found.1
    ["wlan0     IEEE 802.11abgn".data,
     "          ESSID:\"home\"".data,
     "          Mode:Managed  Access Point: AA:BB:CC:DD:EE:FF".data]
    3 (by decide) (by decide)

end Ipwraplib
